import Mathlib

/-!
Verification of the PharmaLens price-aggregation frontend.

The definitions below are a shallow embedding of the TypeScript code in
`frontend/src/pages/Index.tsx` (manual streaming search), `frontend/src/lib/api.ts`
(`searchMedicineStream`, the SSE client), and the result components.  Prices are
modelled as rationals; JavaScript strings as Lean strings.  The backend
aggregator (not part of the frontend sources) is modelled from the spec where a
claim concerns it, and those definitions are marked `Modelled from the spec:`.
-/

/-- One price offer from one pharmacy source, as in `PharmacyPrice` of
`frontend/src/lib/api.ts`.  Fields irrelevant to the verified claims
(`original_price`, `discount`, `delivery_days`, timestamps) are omitted. -/
structure PriceOffer where
  pharmacy_id : String
  pharmacy_name : String
  product_name : String
  price : ℚ
  pack_size : String
  in_stock : Bool
  url : String
deriving DecidableEq, Repr

/-- `medicinePrices.reduce((min, p) => p.price < min.price ? p : min)` from
`Index.tsx` line 235, with the first element as the initial accumulator, as
JavaScript `reduce` without an initial value behaves. -/
def reduceMin (head : PriceOffer) (tail : List PriceOffer) : PriceOffer :=
  tail.foldl (fun mn p => if p.price < mn.price then p else mn) head

/-- `medicinePrices.reduce((max, p) => p.price > max.price ? p : max)` from
`Index.tsx` line 239. -/
def reduceMax (head : PriceOffer) (tail : List PriceOffer) : PriceOffer :=
  tail.foldl (fun mx p => if p.price > mx.price then p else mx) head

/-- `cheapest` of `Index.tsx` lines 234-236: the price-reduce when the list is
nonempty, `null` otherwise. -/
def cheapestOffer : List PriceOffer → Option PriceOffer
  | [] => none
  | h :: t => some (reduceMin h t)

/-- `mostExpensive` of `Index.tsx` lines 238-240. -/
def mostExpensiveOffer : List PriceOffer → Option PriceOffer
  | [] => none
  | h :: t => some (reduceMax h t)

/-- `savings` of `Index.tsx` lines 242-244:
`cheapest && mostExpensive ? mostExpensive.price - cheapest.price : 0`. -/
def savingsOf (prices : List PriceOffer) : ℚ :=
  match cheapestOffer prices, mostExpensiveOffer prices with
  | some c, some m => m.price - c.price
  | _, _ => 0

/-- The payload carried by a `complete` SSE event (the fields of `SearchResult`
in `frontend/src/lib/api.ts` that the client code reads). -/
structure SearchResultPayload where
  medicine_name : String
  prices : List PriceOffer
  cheapest : Option PriceOffer
  savings : ℚ
deriving DecidableEq, Repr

/-- `StreamEvent` of `frontend/src/lib/api.ts`: the four event kinds the client
distinguishes by the `type` tag. -/
inductive StreamEvent where
  | started (message : String)
  | pharmacyResult (pharmacy : String) (prices : List PriceOffer)
      (completedPharmacies : List String) (remaining : Nat) (message : String)
  | complete (payload : SearchResultPayload) (message : String)
  | error (err : String)
deriving DecidableEq, Repr

/-- The price accumulation of the `onEvent` callback in `Index.tsx` lines
205-217: only `pharmacy_result` events with a nonempty `prices` array push onto
`allPrices`; all other events leave it unchanged. -/
def collectPrices (evs : List StreamEvent) : List PriceOffer :=
  evs.foldl
    (fun acc e =>
      match e with
      | .pharmacyResult _ ps _ _ _ => if ps.isEmpty then acc else acc ++ ps
      | _ => acc)
    []

/-- JavaScript `String.prototype.toLowerCase`, character by character, on the
underlying character list. -/
def lcChars (s : List Char) : List Char := s.map Char.toLower

/-- JavaScript `String.prototype.split` with a one-character separator, on
character lists; scans left to right, cutting at every separator occurrence
(accumulator holds the current segment reversed). -/
def splitCharAux (sep : Char) (acc : List Char) : List Char → List (List Char)
  | [] => [acc.reverse]
  | c :: rest =>
    if c = sep then acc.reverse :: splitCharAux sep [] rest
    else splitCharAux sep (c :: acc) rest

/-- `s.split(sep)` for a one-character separator. -/
def splitChar (sep : Char) (s : List Char) : List (List Char) :=
  splitCharAux sep [] s

/-- `medName.split(' ')[0]` of `Index.tsx` line 231: everything before the
first space character (the whole string when it has no space, empty when the
string starts with a space). -/
def firstTokenChars (s : List Char) : List Char := (splitChar ' ' s).headD []

/-- JavaScript `String.prototype.includes` on the underlying character lists:
`listContains pat s` is true when `pat` occurs contiguously in `s`. -/
def listContains (pat : List Char) : List Char → Bool
  | [] => pat.isEmpty
  | c :: rest => pat.isPrefixOf (c :: rest) || listContains pat rest

/-- The attribution predicate of `Index.tsx` lines 230-232:
`p.product_name?.toLowerCase().includes(medName.toLowerCase().split(' ')[0])`. -/
def matchesMed (medName : String) (p : PriceOffer) : Bool :=
  listContains (firstTokenChars (lcChars medName.data)) (lcChars p.product_name.data)

/-- One per-medicine entry of `formattedResults` in `Index.tsx` lines 228-283
(the fields relevant to the claims). -/
structure MedResult where
  name : String
  prices : List PriceOffer
  cheapest : Option PriceOffer
  savings : ℚ
deriving DecidableEq, Repr

/-- Building one entry of `formattedResults` from the accumulated `allPrices`
(`Index.tsx` lines 228-283): filter by the attribution predicate, then compute
`cheapest` and `savings` with the two reduces. -/
def mkMedResult (medName : String) (allPrices : List PriceOffer) : MedResult :=
  let medicinePrices := allPrices.filter (matchesMed medName)
  { name := medName
    prices := medicinePrices
    cheapest := cheapestOffer medicinePrices
    savings := savingsOf medicinePrices }

/-- The `allPrices` array after the `for (const med of medicines)` loop in
`handleManualSearch` (`Index.tsx` lines 195-225): the concatenation, in
medicine order, of the prices collected from each medicine's event stream. -/
def allPricesOf (pairs : List (String × List StreamEvent)) : List PriceOffer :=
  (pairs.map (fun q => collectPrices q.2)).flatten

/-- `handleManualSearch` of `Index.tsx` lines 179-299, as a function of each
medicine's received event stream: accumulate `allPrices` over all streams, then
map every medicine to its formatted result. -/
def handleManualSearch (pairs : List (String × List StreamEvent)) : List MedResult :=
  pairs.map (fun q => mkMedResult q.1 (allPricesOf pairs))

/-- `formattedResults.reduce((sum, r) => sum + (r.savings || 0), 0)` of
`Index.tsx` line 289 (and `ResultsSection.tsx` line 32). -/
def totalSavings (results : List MedResult) : ℚ :=
  results.foldl (fun sum r => sum + r.savings) 0

/-- The specification's rule for `cheapest`, written from the spec text for
comparison with the code's `cheapestOffer`: the minimum-price offer among
in-stock offers, falling back to the minimum-price offer overall when none is
in stock, `null` on an empty list. -/
def specCheapest (offers : List PriceOffer) : Option PriceOffer :=
  match offers.filter (fun p => p.in_stock) with
  | [] => cheapestOffer offers
  | h :: t => some (reduceMin h t)

/-- An out-of-stock offer cheaper than every in-stock one; a concrete input
for refuting the in-stock preference. -/
def offerOutOfStock : PriceOffer :=
  { pharmacy_id := "pharmeasy"
    pharmacy_name := "PharmEasy"
    product_name := "paracetamol 500mg"
    price := 5
    pack_size := "strip of 10"
    in_stock := false
    url := "u1" }

/-- An in-stock offer, more expensive than `offerOutOfStock`. -/
def offerInStock : PriceOffer :=
  { pharmacy_id := "apollo"
    pharmacy_name := "Apollo"
    product_name := "paracetamol 500mg"
    price := 10
    pack_size := "strip of 10"
    in_stock := true
    url := "u2" }

/-- `event.type === 'complete'` projection used when tracking `finalResult` in
`searchMedicineStream` (`api.ts` lines 250-253). -/
def completePayloadOf : StreamEvent → Option SearchResultPayload
  | .complete payload _ => some payload
  | _ => none

/-- JavaScript `buffer.split('\n\n')` of `api.ts` line 237, on character
lists: cut at every occurrence of two consecutive newline characters, scanning
left to right without overlap. -/
def splitBlankAux (acc : List Char) : List Char → List (List Char)
  | '\n' :: '\n' :: rest => acc.reverse :: splitBlankAux [] rest
  | c :: rest => splitBlankAux (c :: acc) rest
  | [] => [acc.reverse]

/-- `buffer.split('\n\n')`. -/
def splitBlank (s : List Char) : List (List Char) := splitBlankAux [] s

/-- The SSE data-line extraction of `api.ts` line 244: `line.match(/^data: (.+)$/m)`
searches the segment for its first line beginning with `"data: "` followed by at
least one character, and captures the remainder of that line. -/
def extractData (seg : List Char) : Option (List Char) :=
  (splitChar '\n' seg).findSome? (fun l =>
    if "data: ".data.isPrefixOf l && !(l.drop 6).isEmpty then some (l.drop 6)
    else none)

/-- The loop state of `searchMedicineStream` (`api.ts` lines 227-259): the
unconsumed `buffer`, the events delivered to `onEvent` so far, and the tracked
`finalResult`. -/
structure StreamState where
  buffer : List Char
  events : List StreamEvent
  finalResult : Option SearchResultPayload
deriving DecidableEq, Repr

/-- Handling of one complete SSE segment (`api.ts` lines 240-258): extract the
data line, parse it (a parse failure — `JSON.parse` throwing — is caught and
skipped), deliver the event, and record the payload of a `complete` event.
`parse` stands for `JSON.parse` on the captured data text. -/
def processSeg (parse : List Char → Option StreamEvent) (st : StreamState)
    (seg : List Char) : StreamState :=
  match extractData seg with
  | none => st
  | some d =>
    match parse d with
    | none => st
    | some ev =>
      { st with
        events := st.events ++ [ev]
        finalResult :=
          match ev with
          | .complete payload _ => some payload
          | _ => st.finalResult }

/-- Handling of one received chunk (`api.ts` lines 234-238): append to the
buffer, split on blank lines, keep the last (possibly incomplete) piece as the
new buffer, and process every complete segment in order. -/
def processChunk (parse : List Char → Option StreamEvent) (st : StreamState)
    (chunk : List Char) : StreamState :=
  let segs := splitBlank (st.buffer ++ chunk)
  segs.dropLast.foldl (processSeg parse) { st with buffer := segs.getLastD [] }

/-- The state before the first chunk: empty buffer, no events, no final result. -/
def initStreamState : StreamState := ⟨[], [], none⟩

/-- The read loop of `searchMedicineStream` over the whole body. -/
def runChunks (parse : List Char → Option StreamEvent)
    (chunks : List (List Char)) : StreamState :=
  chunks.foldl (processChunk parse) initStreamState

/-- The observable input of one `searchMedicineStream` call: either the body
is read to completion (`ok`, the list of received chunks), or the fetch/read
fails after delivering some chunks (`failed`; a failed request or missing body
is `failed [] err`). -/
inductive FetchInput where
  | ok (chunks : List (List Char))
  | failed (chunks : List (List Char)) (err : String)

/-- `searchMedicineStream` of `api.ts` lines 203-267, as a function from the
observable fetch behaviour to the delivered events and the resolved value.  The
surrounding `try`/`catch` makes the function total: a fetch or read failure
emits one `error` event and resolves `null`. -/
def searchMedicineStream (parse : List Char → Option StreamEvent) :
    FetchInput → List StreamEvent × Option SearchResultPayload
  | .ok chunks => ((runChunks parse chunks).events, (runChunks parse chunks).finalResult)
  | .failed chunks err => ((runChunks parse chunks).events ++ [.error err], none)

/-- A concrete parse oracle used by witnesses: `"good"` parses to a `started`
event, `"fin"` to a `complete` event, everything else is malformed. -/
def sampleParse : List Char → Option StreamEvent :=
  fun d =>
    if d = "good".data then some (.started "go")
    else if d = "fin".data then some (.complete ⟨"para", [], none, 0⟩ "done")
    else none

/-- Modelled from the spec: the outcome of one source adapter invocation
(`SourceResult` states of spec §3); the backend aggregator is not among the
frontend sources. -/
inductive SourceOutcome where
  | succeeded (offers : List PriceOffer)
  | failed (err : String)
  | timedOut
deriving DecidableEq, Repr

/-- Modelled from the spec: a `Succeeded` result contributes its offers; a
`Failed` or `TimedOut` source contributes zero offers (spec §4.2 step 3). -/
def outcomeOffers : SourceOutcome → List PriceOffer
  | .succeeded os => os
  | _ => []

/-- Modelled from the spec: the `AggregateResult` accumulator for one query —
collected offers, and the completed/remaining pharmacy-id sets (spec §3). -/
structure AggState where
  offers : List PriceOffer
  completed : List String
  remaining : List String
deriving DecidableEq, Repr

/-- Modelled from the spec: the accumulator created empty when a query starts;
all registered sources are remaining (spec §3, `AggregateResult` lifecycle). -/
def initState (registered : List String) : AggState :=
  { offers := [], completed := [], remaining := registered }

/-- Modelled from the spec: one aggregator update as a source resolves — append
any offers in completion order and move the pharmacy id from `remaining` to
`completed` regardless of outcome kind (spec §4.2 step 3). -/
def resolveSource (st : AggState) (pid : String) (out : SourceOutcome) : AggState :=
  { offers := st.offers ++ outcomeOffers out
    completed := st.completed ++ [pid]
    remaining := st.remaining.erase pid }

/-- Modelled from the spec: processing a sequence of source resolutions from a
given accumulator state. -/
def runFrom (st : AggState) (res : List (String × SourceOutcome)) : AggState :=
  res.foldl (fun s r => resolveSource s r.1 r.2) st

/-- Modelled from the spec: the aggregator run for one query over a completion
sequence of source resolutions. -/
def runAgg (registered : List String) (res : List (String × SourceOutcome)) : AggState :=
  runFrom (initState registered) res

/-- Modelled from the spec: the event kinds of the event-stream encoder — one
`started` event, one `sourceResult` per resolution, one terminal `completeEv`
carrying the final accumulator (spec §4.3). -/
inductive AggEvent where
  | started (nSources : Nat)
  | sourceResult (pid : String) (newOffers : List PriceOffer)
      (completedCount : Nat) (remainingCount : Nat)
  | completeEv (final : AggState)
deriving DecidableEq, Repr

/-- Modelled from the spec: per-resolution events followed by the terminal
`completeEv` with the final accumulator (spec §4.3). -/
def encodeEvents (st : AggState) : List (String × SourceOutcome) → List AggEvent
  | [] => [.completeEv st]
  | (pid, out) :: rest =>
    let st2 := resolveSource st pid out
    .sourceResult pid (outcomeOffers out) st2.completed.length st2.remaining.length ::
      encodeEvents st2 rest

/-- Modelled from the spec: the full event stream for one query. -/
def encodeStream (registered : List String) (res : List (String × SourceOutcome)) :
    List AggEvent :=
  .started registered.length :: encodeEvents (initState registered) res

/-- The client-side fold of `sourceResult` events in arrival order: accumulate
each event's new offers (spec §4.3, reconstruction contract). -/
def foldOffers (evs : List AggEvent) : List PriceOffer :=
  evs.foldl
    (fun acc e =>
      match e with
      | .sourceResult _ os _ _ => acc ++ os
      | _ => acc)
    []

/-- The final accumulator carried by a `completeEv` event. -/
def completeStateOf : AggEvent → Option AggState
  | .completeEv st => some st
  | _ => none

/-- The payload of the last `completeEv` event in a stream, if any. -/
def lastCompletePayload (evs : List AggEvent) : Option AggState :=
  (evs.filterMap completeStateOf).getLast?

/-- Modelled from the spec: `savings = max(price) - cheapest.price` among
current offers, `0` if fewer than two offers (spec §3). -/
def specSavings (offers : List PriceOffer) : ℚ :=
  if offers.length < 2 then 0
  else
    match specCheapest offers, mostExpensiveOffer offers with
    | some c, some m => m.price - c.price
    | _, _ => 0

theorem reduceMin_le (t : List PriceOffer) (a : PriceOffer) :
    (reduceMin a t).price ≤ a.price ∧ ∀ p ∈ t, (reduceMin a t).price ≤ p.price := by
  induction t generalizing a with
  | nil => exact ⟨le_refl _, by intro p hp; cases hp⟩
  | cons b t ih =>
    have hstep : reduceMin a (b :: t) = reduceMin (if b.price < a.price then b else a) t := rfl
    rcases ih (if b.price < a.price then b else a) with ⟨h1, h2⟩
    by_cases hba : b.price < a.price
    · rw [hstep]
      simp only [if_pos hba] at h1 h2 ⊢
      refine ⟨le_trans h1 (le_of_lt hba), ?_⟩
      intro p hp
      rcases List.mem_cons.mp hp with rfl | hp
      · exact h1
      · exact h2 p hp
    · rw [hstep]
      simp only [if_neg hba] at h1 h2 ⊢
      refine ⟨h1, ?_⟩
      intro p hp
      rcases List.mem_cons.mp hp with rfl | hp
      · exact le_trans h1 (le_of_not_lt hba)
      · exact h2 p hp

theorem reduceMin_mem (t : List PriceOffer) (a : PriceOffer) :
    reduceMin a t ∈ a :: t := by
  induction t generalizing a with
  | nil => exact List.mem_singleton.mpr rfl
  | cons b t ih =>
    have hstep : reduceMin a (b :: t) = reduceMin (if b.price < a.price then b else a) t := rfl
    rw [hstep]
    by_cases hba : b.price < a.price
    · simp only [if_pos hba]
      have := ih b
      rcases List.mem_cons.mp this with h | h
      · rw [h]; exact List.mem_cons_of_mem _ (List.mem_cons_self _ _)
      · exact List.mem_cons_of_mem _ (List.mem_cons_of_mem _ h)
    · simp only [if_neg hba]
      have := ih a
      rcases List.mem_cons.mp this with h | h
      · rw [h]; exact List.mem_cons_self _ _
      · exact List.mem_cons_of_mem _ (List.mem_cons_of_mem _ h)

theorem reduceMax_ge (t : List PriceOffer) (a : PriceOffer) :
    a.price ≤ (reduceMax a t).price ∧ ∀ p ∈ t, p.price ≤ (reduceMax a t).price := by
  induction t generalizing a with
  | nil => exact ⟨le_refl _, by intro p hp; cases hp⟩
  | cons b t ih =>
    have hstep : reduceMax a (b :: t) = reduceMax (if b.price > a.price then b else a) t := rfl
    rcases ih (if b.price > a.price then b else a) with ⟨h1, h2⟩
    by_cases hba : b.price > a.price
    · rw [hstep]
      simp only [if_pos hba] at h1 h2 ⊢
      refine ⟨le_trans (le_of_lt hba) h1, ?_⟩
      intro p hp
      rcases List.mem_cons.mp hp with rfl | hp
      · exact h1
      · exact h2 p hp
    · rw [hstep]
      simp only [if_neg hba] at h1 h2 ⊢
      refine ⟨h1, ?_⟩
      intro p hp
      rcases List.mem_cons.mp hp with rfl | hp
      · exact le_trans (le_of_not_lt hba) h1
      · exact h2 p hp

theorem reduceMax_mem (t : List PriceOffer) (a : PriceOffer) :
    reduceMax a t ∈ a :: t := by
  induction t generalizing a with
  | nil => exact List.mem_singleton.mpr rfl
  | cons b t ih =>
    have hstep : reduceMax a (b :: t) = reduceMax (if b.price > a.price then b else a) t := rfl
    rw [hstep]
    by_cases hba : b.price > a.price
    · simp only [if_pos hba]
      have := ih b
      rcases List.mem_cons.mp this with h | h
      · rw [h]; exact List.mem_cons_of_mem _ (List.mem_cons_self _ _)
      · exact List.mem_cons_of_mem _ (List.mem_cons_of_mem _ h)
    · simp only [if_neg hba]
      have := ih a
      rcases List.mem_cons.mp this with h | h
      · rw [h]; exact List.mem_cons_self _ _
      · exact List.mem_cons_of_mem _ (List.mem_cons_of_mem _ h)

theorem reduceMin_first_min (t : List PriceOffer) (a : PriceOffer) :
    (a :: t).find? (fun p => decide (p.price = (reduceMin a t).price)) =
      some (reduceMin a t) := by
  induction t generalizing a with
  | nil =>
    have h : reduceMin a [] = a := rfl
    rw [h]
    exact List.find?_cons_of_pos _ (by simp)
  | cons b t ih =>
    by_cases hba : b.price < a.price
    · have hr : reduceMin a (b :: t) = reduceMin b t := by
        show reduceMin (if b.price < a.price then b else a) t = _
        rw [if_pos hba]
      have hlt : (reduceMin b t).price < a.price :=
        lt_of_le_of_lt (reduceMin_le t b).1 hba
      rw [hr]
      rw [List.find?_cons_of_neg _ (by simpa using ne_of_gt hlt)]
      exact ih b
    · have hr : reduceMin a (b :: t) = reduceMin a t := by
        show reduceMin (if b.price < a.price then b else a) t = _
        rw [if_neg hba]
      have hab : a.price ≤ b.price := le_of_not_lt hba
      have hrle : (reduceMin a t).price ≤ a.price := (reduceMin_le t a).1
      rw [hr]
      by_cases hpa : a.price = (reduceMin a t).price
      · have h1 := ih a
        rw [List.find?_cons_of_pos _ (by simpa using hpa)] at h1
        have hra : reduceMin a t = a := (Option.some.inj h1).symm
        rw [List.find?_cons_of_pos _ (by simpa using hpa)]
        rw [hra]
      · have h1 := ih a
        rw [List.find?_cons_of_neg _ (by simpa using hpa)] at h1
        have hnb : ¬ (b.price = (reduceMin a t).price) := by
          intro h
          exact hpa (le_antisymm (le_trans hab (le_of_eq h)) hrle)
        rw [List.find?_cons_of_neg _ (by simpa using hpa)]
        rw [List.find?_cons_of_neg _ (by simpa using hnb)]
        exact h1

/-- Two in-stock offers tied at the minimum price, and a dearer third; a
concrete input for the tie-break witness. -/
def tieOffer1 : PriceOffer :=
  { pharmacy_id := "p1", pharmacy_name := "P1", product_name := "amoxicillin 250"
    price := 7, pack_size := "strip", in_stock := true, url := "w1" }

/-- Second offer tied at the minimum price (differs from `tieOffer1`). -/
def tieOffer2 : PriceOffer :=
  { pharmacy_id := "p2", pharmacy_name := "P2", product_name := "amoxicillin 250"
    price := 7, pack_size := "strip", in_stock := true, url := "w2" }

/-- A third, more expensive offer. -/
def tieOffer3 : PriceOffer :=
  { pharmacy_id := "p3", pharmacy_name := "P3", product_name := "amoxicillin 250"
    price := 9, pack_size := "strip", in_stock := true, url := "w3" }

/-- Claim C1, counterexample: the code's `cheapest` (`Index.tsx` lines 234-236)
never restricts to in-stock offers.  On the two-offer list with a cheaper
out-of-stock offer it returns the out-of-stock one, while the claim's rule
(minimum price among `in_stock == true` offers when any exist) returns the
in-stock one; the two selections differ. -/
theorem cheapest_stock_counterexample :
    cheapestOffer [offerOutOfStock, offerInStock] = some offerOutOfStock ∧
    specCheapest [offerOutOfStock, offerInStock] = some offerInStock ∧
    offerOutOfStock.in_stock = false ∧
    offerInStock.in_stock = true ∧
    offerOutOfStock ≠ offerInStock := by
  refine ⟨?_, ?_, rfl, rfl, by decide⟩
  · show some (reduceMin offerOutOfStock [offerInStock]) = some offerOutOfStock
    have : reduceMin offerOutOfStock [offerInStock] = offerOutOfStock := by
      simp [reduceMin, offerOutOfStock, offerInStock]
      norm_num
    rw [this]
  · show specCheapest _ = _
    have hfil : [offerOutOfStock, offerInStock].filter (fun p => p.in_stock) =
        [offerInStock] := by
      simp [List.filter, offerOutOfStock, offerInStock]
    simp [specCheapest, hfil, reduceMin]

/-- Claim C1 (amended): for every medicine search result, `cheapest` is the
minimum-price offer among all offers regardless of `in_stock` (an offer of the
list whose price bounds every offer's price from below), and `cheapest` is
`null` exactly when the offer list is empty. -/
theorem cheapest_min_overall (offers : List PriceOffer) :
    (cheapestOffer offers = none ↔ offers = []) ∧
    ∀ c, cheapestOffer offers = some c →
      c ∈ offers ∧ ∀ p ∈ offers, c.price ≤ p.price := by
  constructor
  · cases offers with
    | nil => simp [cheapestOffer]
    | cons h t => simp [cheapestOffer]
  · intro c hc
    cases offers with
    | nil => cases hc
    | cons h t =>
      have hceq : c = reduceMin h t := by
        have := hc.symm
        simpa [cheapestOffer] using this
      subst hceq
      refine ⟨reduceMin_mem t h, ?_⟩
      intro p hp
      rcases List.mem_cons.mp hp with hph | hp
      · rw [hph]; exact (reduceMin_le t h).1
      · exact (reduceMin_le t h).2 p hp

/-- Witness for `cheapest_min_overall` at a concrete two-offer list. -/
theorem cheapest_min_overall_witness :
    offerOutOfStock ∈ [offerOutOfStock, offerInStock] ∧
    ∀ p ∈ [offerOutOfStock, offerInStock], offerOutOfStock.price ≤ p.price :=
  (cheapest_min_overall [offerOutOfStock, offerInStock]).2 offerOutOfStock
    (by decide)

/-- Claim C7: given the fixed arrival order of the offer list, the selected
`cheapest` is a price lower bound of the list and is the first offer of the
list attaining the minimum price, so ties at the minimum are resolved to the
earliest-arriving offer, deterministically. -/
theorem cheapest_first_of_ties (prices : List PriceOffer) (c : PriceOffer)
    (hc : cheapestOffer prices = some c) :
    (∀ p ∈ prices, c.price ≤ p.price) ∧
    prices.find? (fun p => decide (p.price = c.price)) = some c := by
  cases prices with
  | nil => cases hc
  | cons h t =>
    have hceq : c = reduceMin h t := by
      have := hc.symm
      simpa [cheapestOffer] using this
    subst hceq
    refine ⟨?_, reduceMin_first_min t h⟩
    intro p hp
    rcases List.mem_cons.mp hp with hph | hp
    · rw [hph]; exact (reduceMin_le t h).1
    · exact (reduceMin_le t h).2 p hp

/-- Witness for `cheapest_first_of_ties` on a list with two offers tied at the
minimum price: the first of them is selected. -/
theorem cheapest_first_of_ties_witness :
    (∀ p ∈ [tieOffer1, tieOffer2, tieOffer3], tieOffer1.price ≤ p.price) ∧
    [tieOffer1, tieOffer2, tieOffer3].find?
        (fun p => decide (p.price = tieOffer1.price)) = some tieOffer1 :=
  cheapest_first_of_ties [tieOffer1, tieOffer2, tieOffer3] tieOffer1 (by decide)

/-- Claim C5: `savings` is `0` when the medicine has fewer than two offers, and
with at least two offers it equals the maximum price over the offers minus the
cheapest offer's price. -/
theorem savings_spec (prices : List PriceOffer) :
    (prices.length < 2 → savingsOf prices = 0) ∧
    (∀ c, cheapestOffer prices = some c → 2 ≤ prices.length →
      ∃ m, m ∈ prices.map PriceOffer.price ∧
        (∀ q ∈ prices.map PriceOffer.price, q ≤ m) ∧
        savingsOf prices = m - c.price) := by
  constructor
  · intro hlen
    cases prices with
    | nil => rfl
    | cons h t =>
      cases t with
      | nil =>
        simp [savingsOf, cheapestOffer, mostExpensiveOffer, reduceMin, reduceMax]
      | cons b t2 =>
        exfalso
        simp [List.length_cons] at hlen
        omega
  · intro c hc _
    cases prices with
    | nil => cases hc
    | cons h t =>
      have hceq : c = reduceMin h t := by
        have := hc.symm
        simpa [cheapestOffer] using this
      subst hceq
      refine ⟨(reduceMax h t).price, ?_, ?_, ?_⟩
      · exact List.mem_map.mpr ⟨reduceMax h t, reduceMax_mem t h, rfl⟩
      · intro q hq
        rcases List.mem_map.mp hq with ⟨p, hp, hq2⟩
        rw [← hq2]
        rcases List.mem_cons.mp hp with hph | hp
        · rw [hph]; exact (reduceMax_ge t h).1
        · exact (reduceMax_ge t h).2 p hp
      · rfl

/-- Witness for `savings_spec`: a one-offer list has savings `0`, and on the
concrete two-offer list the savings is the price span. -/
theorem savings_spec_witness :
    savingsOf [offerOutOfStock] = 0 ∧
    ∃ m, m ∈ [offerOutOfStock, offerInStock].map PriceOffer.price ∧
      (∀ q ∈ [offerOutOfStock, offerInStock].map PriceOffer.price, q ≤ m) ∧
      savingsOf [offerOutOfStock, offerInStock] = m - offerOutOfStock.price :=
  ⟨(savings_spec [offerOutOfStock]).1 (by decide),
   (savings_spec [offerOutOfStock, offerInStock]).2 offerOutOfStock (by decide)
     (by decide)⟩

/-- Claim C6: the cross-medicine total (`Index.tsx` line 289,
`ResultsSection.tsx` line 32) is exactly the sum of the per-medicine `savings`
values. -/
theorem totalSavings_eq_sum (results : List MedResult) :
    totalSavings results = (results.map MedResult.savings).sum := by
  have h : ∀ (l : List MedResult) (a : ℚ),
      l.foldl (fun sum r => sum + r.savings) a = a + (l.map MedResult.savings).sum := by
    intro l
    induction l with
    | nil => intro a; simp
    | cons r l ih =>
      intro a
      simp only [List.foldl_cons, List.map_cons, List.sum_cons, ih, add_assoc]
  simpa [totalSavings] using h results 0

theorem allPricesOf_cons (q : String × List StreamEvent)
    (t : List (String × List StreamEvent)) :
    allPricesOf (q :: t) = collectPrices q.2 ++ allPricesOf t := by
  simp [allPricesOf]

theorem allPricesOf_eraseIdx (pairs : List (String × List StreamEvent)) (i : Nat)
    (hi : i < pairs.length) (h : collectPrices (pairs.get ⟨i, hi⟩).2 = []) :
    allPricesOf (pairs.eraseIdx i) = allPricesOf pairs := by
  induction pairs generalizing i with
  | nil => cases hi
  | cons q t ih =>
    cases i with
    | zero =>
      have hq : collectPrices q.2 = [] := h
      rw [List.eraseIdx_cons_zero, allPricesOf_cons, hq]
      simp
    | succ n =>
      have hn : n < t.length := Nat.lt_of_succ_lt_succ hi
      have h2 : collectPrices (t.get ⟨n, hn⟩).2 = [] := h
      rw [List.eraseIdx_cons_succ, allPricesOf_cons, allPricesOf_cons,
        ih n hn h2]

/-- Claim C3: in a batch, one medicine's failure (its stream contributed no
prices — all sources failed or the request errored) does not abort the others:
the result list still has one entry per medicine, and every entry equals the
result computed from the price pool with the failed medicine's stream removed,
so all other medicines' searches run to completion and contribute. -/
theorem batch_isolation (pairs : List (String × List StreamEvent)) (i : Nat)
    (hi : i < pairs.length)
    (hfail : collectPrices (pairs.get ⟨i, hi⟩).2 = []) :
    (handleManualSearch pairs).length = pairs.length ∧
    ∀ j (hj : j < pairs.length),
      (handleManualSearch pairs)[j]? =
        some (mkMedResult (pairs.get ⟨j, hj⟩).1 (allPricesOf (pairs.eraseIdx i))) := by
  constructor
  · simp [handleManualSearch]
  · intro j hj
    rw [allPricesOf_eraseIdx pairs i hi hfail]
    show (pairs.map (fun q => mkMedResult q.1 (allPricesOf pairs)))[j]? = _
    rw [List.getElem?_map, List.getElem?_eq_getElem hj]
    simp

/-- Witness for `batch_isolation`: a two-medicine batch where the first
medicine's stream only reports an error. -/
theorem batch_isolation_witness :
    (handleManualSearch
        [("aspirin", [StreamEvent.error "network"]),
         ("paracetamol",
          [StreamEvent.pharmacyResult "Apollo" [offerInStock] ["Apollo"] 3 "ok"])]).length = 2 ∧
    ∀ j (hj : j < (2 : Nat)),
      (handleManualSearch
        [("aspirin", [StreamEvent.error "network"]),
         ("paracetamol",
          [StreamEvent.pharmacyResult "Apollo" [offerInStock] ["Apollo"] 3 "ok"])])[j]? =
        some (mkMedResult
          ([("aspirin", [StreamEvent.error "network"]),
            ("paracetamol",
             [StreamEvent.pharmacyResult "Apollo" [offerInStock] ["Apollo"] 3 "ok"])].get ⟨j, hj⟩).1
          (allPricesOf
            ([("aspirin", [StreamEvent.error "network"]),
              ("paracetamol",
               [StreamEvent.pharmacyResult "Apollo" [offerInStock] ["Apollo"] 3 "ok"])].eraseIdx 0))) :=
  batch_isolation
    [("aspirin", [StreamEvent.error "network"]),
     ("paracetamol",
      [StreamEvent.pharmacyResult "Apollo" [offerInStock] ["Apollo"] 3 "ok"])]
    0 (by decide) (by rfl)

/-- Claim C8: a source fault is swallowed — an `error` event contributes no
offers to the accumulated pool — and a medicine whose sources all failed (no
offer in the pool is attributed to it) still appears in the results as a normal
outcome with an empty offer list, `cheapest = null` and zero savings, not as an
error. -/
theorem fault_swallowed (pairs : List (String × List StreamEvent)) (i : Nat)
    (hi : i < pairs.length)
    (hempty : (allPricesOf pairs).filter (matchesMed (pairs.get ⟨i, hi⟩).1) = []) :
    (∀ evs msg, collectPrices (evs ++ [StreamEvent.error msg]) = collectPrices evs) ∧
    (handleManualSearch pairs)[i]? =
      some { name := (pairs.get ⟨i, hi⟩).1, prices := [], cheapest := none,
             savings := 0 } := by
  constructor
  · intro evs msg
    simp [collectPrices, List.foldl_append]
  · show (pairs.map (fun q => mkMedResult q.1 (allPricesOf pairs)))[i]? = _
    rw [List.getElem?_map, List.getElem?_eq_getElem hi]
    simp only [Option.map_some']
    have hempty2 :
        (allPricesOf pairs).filter (matchesMed pairs[i].1) = [] := hempty
    simp only [mkMedResult]
    rw [hempty2]
    rfl

/-- Witness for `fault_swallowed`: a single medicine whose only event is an
error still produces a normal empty result. -/
theorem fault_swallowed_witness :
    (∀ evs msg, collectPrices (evs ++ [StreamEvent.error msg]) = collectPrices evs) ∧
    (handleManualSearch [("zzz", [StreamEvent.error "boom"])])[0]? =
      some { name := "zzz", prices := [], cheapest := none, savings := (0 : ℚ) } :=
  fault_swallowed [("zzz", [StreamEvent.error "boom"])] 0 (by decide) (by rfl)

/-- Claim C10: a streamed offer is attributed to a medicine exactly when its
`product_name` contains, case-insensitively, the first space-separated token of
the medicine's name; medicines whose names share that first token receive the
same offers (one offer can land in several results), and an offer matching no
medicine appears in no result. -/
theorem offer_attribution (pairs : List (String × List StreamEvent)) (j : Nat)
    (hj : j < pairs.length) (o : PriceOffer) :
    ((handleManualSearch pairs)[j]? =
      some (mkMedResult (pairs.get ⟨j, hj⟩).1 (allPricesOf pairs))) ∧
    (o ∈ (mkMedResult (pairs.get ⟨j, hj⟩).1 (allPricesOf pairs)).prices ↔
      o ∈ allPricesOf pairs ∧ matchesMed (pairs.get ⟨j, hj⟩).1 o = true) ∧
    (∀ m1 m2 : String,
      firstTokenChars (lcChars m1.data) = firstTokenChars (lcChars m2.data) →
      matchesMed m1 o = matchesMed m2 o) ∧
    ((∀ q ∈ pairs, matchesMed q.1 o = false) →
      ∀ r ∈ handleManualSearch pairs, o ∉ r.prices) := by
  refine ⟨?_, ?_, ?_, ?_⟩
  · show (pairs.map (fun q => mkMedResult q.1 (allPricesOf pairs)))[j]? = _
    rw [List.getElem?_map, List.getElem?_eq_getElem hj]
    simp only [Option.map_some']
    rfl
  · simp [mkMedResult, List.mem_filter]
  · intro m1 m2 hm
    simp [matchesMed, hm]
  · intro hnone r hr ho
    rcases List.mem_map.mp hr with ⟨q, hq, hrq⟩
    rw [← hrq] at ho
    have hmem : matchesMed q.1 o = true :=
      (List.mem_filter.mp (by simpa [mkMedResult] using ho)).2
    rw [hnone q hq] at hmem
    cases hmem

/-- Witness for `offer_attribution`: the Apollo offer is attributed to the
medicine `"paracetamol 500"` because its product name contains `"paracetamol"`. -/
theorem offer_attribution_witness :
    offerInStock ∈ (mkMedResult "paracetamol 500"
      (allPricesOf [("paracetamol 500",
        [StreamEvent.pharmacyResult "Apollo" [offerInStock] ["Apollo"] 3 "ok"])])).prices :=
  ((offer_attribution [("paracetamol 500",
        [StreamEvent.pharmacyResult "Apollo" [offerInStock] ["Apollo"] 3 "ok"])] 0
      (by decide) offerInStock).2.1).mpr ⟨by decide, by decide⟩

theorem processSeg_final (parse : List Char → Option StreamEvent)
    (st : StreamState) (seg : List Char)
    (h : st.finalResult = (st.events.filterMap completePayloadOf).getLast?) :
    (processSeg parse st seg).finalResult =
      ((processSeg parse st seg).events.filterMap completePayloadOf).getLast? := by
  cases hx : extractData seg with
  | none =>
    have hps : processSeg parse st seg = st := by
      simp [processSeg, hx]
    rw [hps]; exact h
  | some d =>
    cases hp : parse d with
    | none =>
      have hps : processSeg parse st seg = st := by
        simp [processSeg, hx, hp]
      rw [hps]; exact h
    | some ev =>
      cases ev with
      | complete payload msg =>
        have hps : processSeg parse st seg =
            { st with
              events := st.events ++ [.complete payload msg]
              finalResult := some payload } := by
          simp [processSeg, hx, hp]
        rw [hps]
        simp [completePayloadOf, List.filterMap_append]
      | started m =>
        have hps : processSeg parse st seg =
            { st with events := st.events ++ [.started m] } := by
          simp [processSeg, hx, hp]
        rw [hps]
        simp [completePayloadOf, List.filterMap_append, h]
      | pharmacyResult ph ps cs r m =>
        have hps : processSeg parse st seg =
            { st with events := st.events ++ [.pharmacyResult ph ps cs r m] } := by
          simp [processSeg, hx, hp]
        rw [hps]
        simp [completePayloadOf, List.filterMap_append, h]
      | error e =>
        have hps : processSeg parse st seg =
            { st with events := st.events ++ [.error e] } := by
          simp [processSeg, hx, hp]
        rw [hps]
        simp [completePayloadOf, List.filterMap_append, h]

theorem foldSegs_final (parse : List Char → Option StreamEvent)
    (segs : List (List Char)) (st : StreamState)
    (h : st.finalResult = (st.events.filterMap completePayloadOf).getLast?) :
    (segs.foldl (processSeg parse) st).finalResult =
      ((segs.foldl (processSeg parse) st).events.filterMap
        completePayloadOf).getLast? := by
  induction segs generalizing st with
  | nil => exact h
  | cons s rest ih => exact ih _ (processSeg_final parse st s h)

theorem processChunk_final (parse : List Char → Option StreamEvent)
    (st : StreamState) (chunk : List Char)
    (h : st.finalResult = (st.events.filterMap completePayloadOf).getLast?) :
    (processChunk parse st chunk).finalResult =
      ((processChunk parse st chunk).events.filterMap
        completePayloadOf).getLast? := by
  unfold processChunk
  exact foldSegs_final parse _ _ h

theorem runChunks_final (parse : List Char → Option StreamEvent)
    (chunks : List (List Char)) :
    (runChunks parse chunks).finalResult =
      ((runChunks parse chunks).events.filterMap completePayloadOf).getLast? := by
  unfold runChunks
  have hgen : ∀ (cs : List (List Char)) (st : StreamState),
      st.finalResult = (st.events.filterMap completePayloadOf).getLast? →
      (cs.foldl (processChunk parse) st).finalResult =
        ((cs.foldl (processChunk parse) st).events.filterMap
          completePayloadOf).getLast? := by
    intro cs
    induction cs with
    | nil => intro st h; exact h
    | cons c rest ih =>
      intro st h
      exact ih _ (processChunk_final parse st c h)
  exact hgen chunks initStreamState rfl

/-- Claim C9: `searchMedicineStream` is total over its observable inputs — a
failed fetch or body read yields the events received so far followed by one
`error` callback and a `null` resolution; on a completed body it resolves to
the payload of the last delivered `complete` event (`null` when none was
delivered); and a segment whose data line fails to parse is skipped, leaving
the processing state unchanged so the stream continues. -/
theorem searchMedicineStream_spec (parse : List Char → Option StreamEvent) :
    (∀ chunks err,
      searchMedicineStream parse (.failed chunks err) =
        ((runChunks parse chunks).events ++ [StreamEvent.error err], none)) ∧
    (∀ chunks,
      (searchMedicineStream parse (.ok chunks)).2 =
        ((searchMedicineStream parse (.ok chunks)).1.filterMap
          completePayloadOf).getLast?) ∧
    (∀ st seg d, extractData seg = some d → parse d = none →
      processSeg parse st seg = st) := by
  refine ⟨fun chunks err => rfl, ?_, ?_⟩
  · intro chunks
    exact runChunks_final parse chunks
  · intro st seg d hx hp
    simp [processSeg, hx, hp]

/-- Witness for `searchMedicineStream_spec` with the concrete `sampleParse`
oracle: a failing read still delivers the earlier event plus the error event
and resolves `null`; a stream with a trailing `complete` event resolves to its
payload; a malformed data line leaves the state untouched. -/
theorem searchMedicineStream_spec_witness :
    searchMedicineStream sampleParse
        (.failed ["data: good\n\n".data] "boom") =
      ([StreamEvent.started "go", StreamEvent.error "boom"], none) ∧
    (searchMedicineStream sampleParse
        (.ok ["data: good\n\ndata: fin\n\n".data])).2 =
      some ⟨"para", [], none, 0⟩ ∧
    processSeg sampleParse initStreamState "data: bad".data = initStreamState := by
  have h := searchMedicineStream_spec sampleParse
  refine ⟨?_, ?_, ?_⟩
  · rw [h.1 ["data: good\n\n".data] "boom"]
    decide
  · rw [h.2.1 ["data: good\n\ndata: fin\n\n".data]]
    decide
  · exact h.2.2 initStreamState "data: bad".data "bad".data (by decide) (by decide)

theorem runFrom_offers (res : List (String × SourceOutcome)) (st : AggState) :
    (runFrom st res).offers =
      st.offers ++ (res.map (fun r => outcomeOffers r.2)).flatten := by
  induction res generalizing st with
  | nil => simp [runFrom]
  | cons r rest ih =>
    show (runFrom (resolveSource st r.1 r.2) rest).offers = _
    rw [ih]
    simp [resolveSource, List.append_assoc]

theorem encodeEvents_last (res : List (String × SourceOutcome)) (st : AggState) :
    (encodeEvents st res).filterMap completeStateOf = [runFrom st res] := by
  induction res generalizing st with
  | nil => rfl
  | cons r rest ih =>
    obtain ⟨pid, out⟩ := r
    show (AggEvent.sourceResult pid (outcomeOffers out)
          (resolveSource st pid out).completed.length
          (resolveSource st pid out).remaining.length ::
        encodeEvents (resolveSource st pid out) rest).filterMap completeStateOf =
      [runFrom st ((pid, out) :: rest)]
    rw [List.filterMap_cons]
    show (encodeEvents (resolveSource st pid out) rest).filterMap completeStateOf = _
    exact ih (resolveSource st pid out)

theorem encodeEvents_foldOffers (res : List (String × SourceOutcome))
    (st : AggState) (acc : List PriceOffer) :
    (encodeEvents st res).foldl
        (fun acc e =>
          match e with
          | AggEvent.sourceResult _ os _ _ => acc ++ os
          | _ => acc) acc =
      acc ++ (res.map (fun r => outcomeOffers r.2)).flatten := by
  induction res generalizing st acc with
  | nil => simp [encodeEvents]
  | cons r rest ih =>
    obtain ⟨pid, out⟩ := r
    simp only [encodeEvents, List.foldl_cons]
    rw [ih]
    simp [List.append_assoc]

/-- Claim C2 (spec-modelled; the backend aggregator and encoder are not among
the frontend sources): for every query stream, folding the per-source events in
arrival order yields exactly the offers of the single terminal `complete`
event's payload — the final aggregator state — and therefore the same
`cheapest` and `savings` computed from them. -/
theorem stream_fold_eq_complete (registered : List String)
    (res : List (String × SourceOutcome)) :
    lastCompletePayload (encodeStream registered res) = some (runAgg registered res) ∧
    foldOffers (encodeStream registered res) = (runAgg registered res).offers ∧
    specCheapest (foldOffers (encodeStream registered res)) =
      specCheapest ((runAgg registered res).offers) ∧
    specSavings (foldOffers (encodeStream registered res)) =
      specSavings ((runAgg registered res).offers) := by
  have hoff : foldOffers (encodeStream registered res) = (runAgg registered res).offers := by
    have h1 : foldOffers (encodeStream registered res) =
        (encodeEvents (initState registered) res).foldl
          (fun acc e =>
            match e with
            | AggEvent.sourceResult _ os _ _ => acc ++ os
            | _ => acc) [] := rfl
    rw [h1, encodeEvents_foldOffers]
    rw [runAgg, runFrom_offers]
    simp [initState]
  refine ⟨?_, hoff, by rw [hoff], by rw [hoff]⟩
  show lastCompletePayload
      (AggEvent.started registered.length :: encodeEvents (initState registered) res) = _
  unfold lastCompletePayload
  simp [completeStateOf, encodeEvents_last, List.filterMap_cons, runAgg]

theorem runFrom_perm (res : List (String × SourceOutcome)) (st : AggState)
    (hsub : ∀ p ∈ res.map Prod.fst, p ∈ st.remaining)
    (hnodup : (res.map Prod.fst).Nodup) :
    ((runFrom st res).completed ++ (runFrom st res).remaining).Perm
      (st.completed ++ st.remaining) := by
  induction res generalizing st with
  | nil => exact List.Perm.refl _
  | cons r rest ih =>
    obtain ⟨pid, out⟩ := r
    have hmem : pid ∈ st.remaining := hsub pid (by simp)
    have hnodup2 : (pid :: rest.map Prod.fst).Nodup := by simpa using hnodup
    have hnd := List.nodup_cons.mp hnodup2
    have hsub2 : ∀ p ∈ rest.map Prod.fst, p ∈ (resolveSource st pid out).remaining := by
      intro p hp
      have hne : p ≠ pid := fun he => hnd.1 (he ▸ hp)
      have hpr : p ∈ st.remaining := hsub p (by simp [hp])
      show p ∈ st.remaining.erase pid
      exact (List.mem_erase_of_ne hne).mpr hpr
    have hih := ih (resolveSource st pid out) hsub2 hnd.2
    have hstep : ((resolveSource st pid out).completed ++
        (resolveSource st pid out).remaining).Perm (st.completed ++ st.remaining) := by
      show ((st.completed ++ [pid]) ++ st.remaining.erase pid).Perm _
      rw [List.append_assoc]
      exact List.Perm.append_left st.completed (List.perm_cons_erase hmem).symm
    exact hih.trans hstep

/-- Claim C4 (spec-modelled; the backend aggregator is not among the frontend
sources): at every snapshot — after any prefix of the completion sequence — the
completed and remaining pharmacy sets partition the registered source set: they
are disjoint, their union is the registered set, and their sizes add up to the
number of registered pharmacies. -/
theorem partition_invariant (registered : List String) (hreg : registered.Nodup)
    (res : List (String × SourceOutcome))
    (hnodup : (res.map Prod.fst).Nodup)
    (hsub : ∀ p ∈ res.map Prod.fst, p ∈ registered) (k : Nat) :
    ((runAgg registered (res.take k)).completed.length +
        (runAgg registered (res.take k)).remaining.length = registered.length) ∧
    (∀ p, (p ∈ (runAgg registered (res.take k)).completed ∨
        p ∈ (runAgg registered (res.take k)).remaining) ↔ p ∈ registered) ∧
    (∀ p, p ∈ (runAgg registered (res.take k)).completed →
      p ∉ (runAgg registered (res.take k)).remaining) := by
  have hsubk : ∀ p ∈ (res.take k).map Prod.fst, p ∈ (initState registered).remaining := by
    intro p hp
    rw [List.map_take] at hp
    exact hsub p (List.take_subset _ _ hp)
  have hndk : ((res.take k).map Prod.fst).Nodup := by
    rw [List.map_take]
    exact List.Nodup.sublist (List.take_sublist _ _) hnodup
  have hperm := runFrom_perm (res.take k) (initState registered) hsubk hndk
  have hperm2 : ((runAgg registered (res.take k)).completed ++
      (runAgg registered (res.take k)).remaining).Perm registered := by
    simpa [initState, runAgg] using hperm
  have hnd : ((runAgg registered (res.take k)).completed ++
      (runAgg registered (res.take k)).remaining).Nodup :=
    hperm2.nodup_iff.mpr hreg
  refine ⟨?_, ?_, ?_⟩
  · have := hperm2.length_eq
    simpa using this
  · intro p
    rw [← List.mem_append]
    exact hperm2.mem_iff
  · intro p hpc hpr
    rcases List.nodup_append.mp hnd with ⟨h1, h2, hdisj⟩
    exact hdisj hpc hpr

/-- Witness for `partition_invariant`: two registered pharmacies, one timed
out; after one resolution the partition holds. -/
theorem partition_invariant_witness :
    ((runAgg ["apollo", "netmeds"] ([("apollo", SourceOutcome.timedOut)].take 1)).completed.length +
        (runAgg ["apollo", "netmeds"] ([("apollo", SourceOutcome.timedOut)].take 1)).remaining.length =
      ["apollo", "netmeds"].length) ∧
    (∀ p, (p ∈ (runAgg ["apollo", "netmeds"] ([("apollo", SourceOutcome.timedOut)].take 1)).completed ∨
        p ∈ (runAgg ["apollo", "netmeds"] ([("apollo", SourceOutcome.timedOut)].take 1)).remaining) ↔
      p ∈ ["apollo", "netmeds"]) ∧
    (∀ p, p ∈ (runAgg ["apollo", "netmeds"] ([("apollo", SourceOutcome.timedOut)].take 1)).completed →
      p ∉ (runAgg ["apollo", "netmeds"] ([("apollo", SourceOutcome.timedOut)].take 1)).remaining) :=
  partition_invariant ["apollo", "netmeds"] (by decide)
    [("apollo", SourceOutcome.timedOut)] (by decide) (by decide) 1
